import Mathlib

/-
Verification of the PriceTracker scraper core (src/scraper.py).

Shallow embedding conventions:
  * Python strings are `List Char`; prices (Python floats holding decimal
    literals) are `ℚ`.
  * Parsed HTML (BeautifulSoup) is abstracted as a `Page`: `select` maps a
    CSS-selector string to the list of the matched elements' visible texts
    (in document order, as returned by `get_text(strip=True)`), and `text`
    is the whole-page text (`soup.get_text()`).
  * `requests` fetches are abstracted as a list of per-attempt outcomes
    (transport failure or a fetched page); the retry loops walk that list.
-/

namespace PriceTracker

/-- Python's whitespace class restricted to ASCII: the characters matched by
the regex class backslash-s and stripped by str.strip(). -/
def isPySpace (c : Char) : Bool :=
  c == ' ' || c == '\t' || c == '\n' || c == '\r' || c == Char.ofNat 11 || c == Char.ofNat 12

/-- Python str.strip(): drop leading and trailing whitespace. -/
def stripWS (l : List Char) : List Char :=
  ((l.dropWhile isPySpace).reverse.dropWhile isPySpace).reverse

/-- Python str.replace with the single space character and the empty string:
removes every literal space (and only the space, not tabs or newlines). -/
def despace (l : List Char) : List Char := l.filter (· != ' ')

/-- Python str.replace turning every comma into a dot. -/
def commaToDot (l : List Char) : List Char := l.map (fun c => if c == ',' then '.' else c)

/-- Python str.find / str.index for a character known to occur: the index of
its first occurrence (the length of the prefix free of it). -/
def pyFindNat (t : List Char) (c : Char) : Nat := (t.takeWhile (· != c)).length

/-- Python str.rfind for a character known to occur: the index of its last
occurrence. -/
def pyRFindNat (t : List Char) (c : Char) : Nat :=
  t.length - 1 - (t.reverse.takeWhile (· != c)).length

/-- Number of characters strictly after the last comma of the string. -/
def charsAfterComma (t : List Char) : Nat := (t.reverse.takeWhile (· != ',')).length

/-- Number of occurrences of a character in a string. -/
def countOcc (c : Char) : List Char → Nat
  | [] => 0
  | a :: r => (if a = c then 1 else 0) + countOcc c r

/-- Numeric value of a digit string (most significant first). -/
def digitsNat (l : List Char) : Nat :=
  l.foldl (fun n c => 10 * n + (c.toNat - 48)) 0

/-- Numeric value of a digit string, as a rational. -/
def digitsVal (l : List Char) : ℚ := (digitsNat l : ℚ)

/-- Python float() on an unsigned body: digits with at most one dot and at
least one digit somewhere. Models Python's acceptance of a trailing or
leading dot ("123." and ".56"). -/
def pyFloatCore (l : List Char) : Option ℚ :=
  let ip := l.takeWhile Char.isDigit
  let rest := l.dropWhile Char.isDigit
  match rest with
  | [] => if ip = [] then none else some (digitsVal ip)
  | '.' :: fr =>
    if fr.all Char.isDigit then
      if ip = [] ∧ fr = [] then none
      else some (mkRat (digitsNat ip * 10 ^ fr.length + digitsNat fr) (10 ^ fr.length))
    else none
  | _ => none

/-- Python float() on a string: strip whitespace, optional sign, unsigned
body; `none` models the ValueError raised on anything else. -/
def pyFloat? (l : List Char) : Option ℚ :=
  match stripWS l with
  | '-' :: r => (pyFloatCore r).map (fun q => -q)
  | '+' :: r => pyFloatCore r
  | t => pyFloatCore t

/-- The caller-specific plausibility gate shared by both parsers:
pass the value through iff it lies in the closed range, else no value. -/
def rangeGate (lo hi : ℚ) (o : Option ℚ) : Option ℚ :=
  match o with
  | none => none
  | some p => if lo ≤ p ∧ p ≤ hi then some p else none

/-- PrisjaktScraper._parse_price_text cleaning step: re.sub removing every
character outside the class of digits, comma, dot, and whitespace.
Note: the Prisjakt class has no hyphen. -/
def prisjaktKeep (c : Char) : Bool := c.isDigit || c == ',' || c == '.' || isPySpace c

/-- Prisjakt first cleaning step (re.sub of the complement class). -/
def prisjaktCleanStep (s : List Char) : List Char := s.filter prisjaktKeep

/-- BlocketScraper._parse_price_text cleaning class: digits, whitespace,
comma, dot, and hyphen. -/
def blocketKeep (c : Char) : Bool :=
  c.isDigit || isPySpace c || c == ',' || c == '.' || c == '-'

/-- Blocket first cleaning step. -/
def blocketCleanStep (s : List Char) : List Char := s.filter blocketKeep

/-- Prisjakt separator resolution (lines 183-193 of scraper.py), applied to
the cleaned, stripped, space-free text: both separators present compares
rfind positions; a lone comma is a decimal point iff len - rfind(comma)
is at most 3. -/
def prisjaktResolveSep (t : List Char) : List Char :=
  if ',' ∈ t ∧ '.' ∈ t then
    if pyRFindNat t ',' > pyRFindNat t '.' then commaToDot (t.filter (· != '.'))
    else t.filter (· != ',')
  else if ',' ∈ t then
    if t.length - pyRFindNat t ',' ≤ 3 then commaToDot t
    else t.filter (· != ',')
  else t

/-- Prisjakt text preparation before separator resolution: clean, strip,
then remove every space (line 180). -/
def prisjaktPrepared (s : List Char) : List Char := despace (stripWS (prisjaktCleanStep s))

/-- Prisjakt numeric normalization without the plausibility gate. -/
def prisjaktNormalize (s : List Char) : Option ℚ :=
  pyFloat? (prisjaktResolveSep (prisjaktPrepared s))

/-- PrisjaktScraper._parse_price_text: normalize then gate on [0, 10000000]. -/
def prisjaktParsePrice (s : List Char) : Option ℚ :=
  rangeGate 0 10000000 (prisjaktNormalize s)

/-- Blocket separator resolution (lines 424-436): an if/elif chain, so a
present space removes spaces and SKIPS comma/dot handling; both separators
present compares the FIRST occurrences; lone comma as in Prisjakt. -/
def blocketResolveSep (t : List Char) : List Char :=
  if ' ' ∈ t then despace t
  else if ',' ∈ t ∧ '.' ∈ t then
    if pyFindNat t ',' < pyFindNat t '.' then t.filter (· != ',')
    else commaToDot (t.filter (· != '.'))
  else if ',' ∈ t then
    if t.length - pyRFindNat t ',' ≤ 3 then commaToDot t
    else t.filter (· != ',')
  else t

/-- Blocket numeric normalization without the plausibility gate. -/
def blocketNormalize (s : List Char) : Option ℚ :=
  pyFloat? (blocketResolveSep (stripWS (blocketCleanStep s)))

/-- BlocketScraper._parse_price_text: empty guards, clean, strip, resolve,
float, then gate on [100, 100000]. -/
def blocketParsePrice (s : List Char) : Option ℚ :=
  if s = [] then none
  else if stripWS (blocketCleanStep s) = [] then none
  else rangeGate 100 100000 (blocketNormalize s)

/-- Modelled from the spec: the separator-resolution rule as the spec states
it — with both separators present the one whose LAST occurrence is later is
the decimal point, and a lone comma is a decimal point when at most 3
characters follow it. Used to compare the spec's words with the code. -/
def specResolveSep (t : List Char) : List Char :=
  if ',' ∈ t ∧ '.' ∈ t then
    if pyRFindNat t ',' > pyRFindNat t '.' then commaToDot (t.filter (· != '.'))
    else t.filter (· != ',')
  else if ',' ∈ t then
    if charsAfterComma t ≤ 3 then commaToDot t
    else t.filter (· != ',')
  else t

/-- Modelled from the spec: the normalizer as the spec describes it, on the
Prisjakt cleaning class and selector range. -/
def specParsePrisjakt (s : List Char) : Option ℚ :=
  rangeGate 0 10000000 (pyFloat? (specResolveSep (despace (stripWS (prisjaktCleanStep s)))))

/-- Modelled from the spec: the normalizer as the spec describes it, on the
Blocket cleaning class and listing range. -/
def specParseBlocket (s : List Char) : Option ℚ :=
  rangeGate 100 100000 (pyFloat? (specResolveSep (despace (stripWS (blocketCleanStep s)))))

/-- Modelled from the spec: the cleaning step as the spec words it — keep
exactly digits, comma, dot, the space character, and the hyphen. -/
def specCleanStep (s : List Char) : List Char :=
  s.filter (fun c => c.isDigit || c == ',' || c == '.' || c == ' ' || c == '-')

/- ----------------------------------------------------------------- -/
/- Text-pattern extraction: a faithful executable model of the Python
   re.findall / re.finditer scans for the seven shapes of price regex
   used in scraper.py. Every pattern is a digit run (with bounds),
   optionally followed by one-or-more separator-plus-three-digit groups,
   attached to a case-insensitive "kr" marker through optional
   whitespace, either as a suffix or (reversed patterns) as a prefix.  -/

/-- The three grouping-separator classes appearing in the price regexes. -/
inductive SepKind where
  | ws : SepKind
  | comma : SepKind
  | dot : SepKind

/-- Which characters a grouping separator class matches. -/
def sepMatches : SepKind → Char → Bool
  | SepKind.ws, c => isPySpace c
  | SepKind.comma, c => c == ','
  | SepKind.dot, c => c == '.'

/-- Shape of one price regex: reversed means the kr marker precedes the
number; minD/maxD bound the leading digit run; sep, when present, is the
class of the one-or-more three-digit groups. -/
structure TxtPattern where
  reversed : Bool
  minD : Nat
  maxD : Option Nat
  sep : Option SepKind

/-- Leading digit-run length check against the pattern bounds. -/
def dOK (pat : TxtPattern) (d : Nat) : Bool :=
  pat.minD ≤ d && (match pat.maxD with | some m => d ≤ m | none => true)

/-- All ways the greedy one-or-more separator-group repetition can consume
input, most greedy first, as (chars consumed, rest) pairs; regex
backtracking tries them in exactly this order. -/
def groupsOptions (sk : SepKind) : List Char → List (Nat × List Char)
  | s :: a :: b :: c :: rest =>
    if sepMatches sk s && a.isDigit && b.isDigit && c.isDigit then
      ((groupsOptions sk rest).map (fun pr => (pr.1 + 4, pr.2))) ++ [(4, rest)]
    else []
  | _ => []

/-- Match the suffix: optional whitespace then the case-insensitive kr
marker; returns the number of characters consumed. -/
def matchKrSuffix (l : List Char) : Option Nat :=
  let w := (l.takeWhile isPySpace).length
  match l.drop w with
  | k :: r :: _ =>
    if (k == 'k' || k == 'K') && (r == 'r' || r == 'R') then some (w + 2) else none
  | _ => none

/-- Try each grouping option in greedy order until the kr suffix fits;
returns (captured group, total consumed). -/
def tryGroupOpts (l : List Char) (d : Nat) : List (Nat × List Char) → Option (List Char × Nat)
  | [] => none
  | (n, r) :: more =>
    match matchKrSuffix r with
    | some m => some (l.take (d + n), d + n + m)
    | none => tryGroupOpts l d more

/-- Match a forward pattern (number then kr) at the head of the input.
Because separators and the kr marker are never digits, the greedy digit
run can only succeed when taken whole, so the run length must satisfy the
pattern bounds directly. -/
def matchForward (pat : TxtPattern) (l : List Char) : Option (List Char × Nat) :=
  let ds := l.takeWhile Char.isDigit
  let d := ds.length
  if d = 0 then none
  else if !(dOK pat d) then none
  else
    match pat.sep with
    | none =>
      match matchKrSuffix (l.drop d) with
      | some m => some (ds, d + m)
      | none => none
    | some sk => tryGroupOpts l d (groupsOptions sk (l.drop d))

/-- Match a reversed pattern (kr then number) at the head of the input;
with nothing after the capture, greediness takes the maximal option. -/
def matchReversed (pat : TxtPattern) (l : List Char) : Option (List Char × Nat) :=
  match l with
  | k :: r :: rest =>
    if (k == 'k' || k == 'K') && (r == 'r' || r == 'R') then
      let w := (rest.takeWhile isPySpace).length
      let l2 := rest.drop w
      let ds := l2.takeWhile Char.isDigit
      let d := ds.length
      if d = 0 then none
      else if !(dOK pat d) then none
      else
        match pat.sep with
        | none => some (ds, 2 + w + d)
        | some sk =>
          match groupsOptions sk (l2.drop d) with
          | [] => none
          | (n, _) :: _ => some (l2.take (d + n), 2 + w + d + n)
    else none
  | _ => none

/-- Try a pattern at the head of input. -/
def tryMatch (pat : TxtPattern) (l : List Char) : Option (List Char × Nat) :=
  if pat.reversed then matchReversed pat l else matchForward pat l

/-- The re.findall scan: try at each position, and on a hit continue after
the consumed text (every hit consumes at least one character). Fuel is the
input length, which the scan can never exhaust early. -/
def findAllAux (pat : TxtPattern) : Nat → List Char → List (List Char)
  | 0, _ => []
  | _, [] => []
  | fuel + 1, c :: rest =>
    match tryMatch pat (c :: rest) with
    | some (g, n) => g :: findAllAux pat fuel (rest.drop (n - 1))
    | none => findAllAux pat fuel rest

/-- All capture groups of a pattern over a text, left to right,
non-overlapping — the list re.findall returns. -/
def findAll (pat : TxtPattern) (l : List Char) : List (List Char) :=
  findAllAux pat l.length l

/-- The four Prisjakt price patterns of _extract_price_from_text, in
order: space-grouped, comma-grouped, bare 4-6 digits, bare 1-3 digits,
each followed by optional whitespace and kr. -/
def prisjaktPatterns : List TxtPattern :=
  [⟨false, 1, some 3, some SepKind.ws⟩,
   ⟨false, 1, some 3, some SepKind.comma⟩,
   ⟨false, 4, some 6, none⟩,
   ⟨false, 1, some 3, none⟩]

/-- Prisjakt per-match acceptance (lines 127-131): drop spaces and commas,
float, keep iff within [100, 100000]. -/
def prisjaktTextAccept (m : List Char) : Option ℚ :=
  rangeGate 100 100000 (pyFloat? ((m.filter (· != ' ')).filter (· != ',')))

/-- All accepted values over all four Prisjakt patterns, in scan order. -/
def prisjaktFoundPrices (text : List Char) : List ℚ :=
  ((prisjaktPatterns.map (fun pat => findAll pat text)).flatten).filterMap prisjaktTextAccept

/-- Python max over a nonempty list (0 is never used: callers guard). -/
def listMax : List ℚ → ℚ
  | [] => 0
  | x :: xs => xs.foldl max x

/-- Python min over a nonempty list (0 is never used: callers guard). -/
def listMin : List ℚ → ℚ
  | [] => 0
  | x :: xs => xs.foldl min x

/-- PrisjaktScraper._extract_price_from_text selection policy: prefer the
maximum of the accepted values at least 1000, else the maximum of all
accepted values; no value when nothing was accepted. -/
def prisjaktExtractFromText (text : List Char) : Option ℚ :=
  if prisjaktFoundPrices text = [] then none
  else if (prisjaktFoundPrices text).filter (fun p => decide (1000 ≤ p)) = [] then
    some (listMax (prisjaktFoundPrices text))
  else some (listMax ((prisjaktFoundPrices text).filter (fun p => decide (1000 ≤ p))))

/-- The seven Blocket price patterns of _extract_prices_from_text, in
order: space-grouped, bare digits, reversed space-grouped, reversed bare,
comma-grouped, dot-grouped, bare 4-6 digits. -/
def blocketPatterns : List TxtPattern :=
  [⟨false, 1, some 3, some SepKind.ws⟩,
   ⟨false, 1, none, none⟩,
   ⟨true, 1, some 3, some SepKind.ws⟩,
   ⟨true, 1, none, none⟩,
   ⟨false, 1, none, some SepKind.comma⟩,
   ⟨false, 1, none, some SepKind.dot⟩,
   ⟨false, 4, some 6, none⟩]

/-- BlocketScraper._extract_prices_from_text: every pattern match, parsed
through the Blocket normalizer, in scan order. -/
def blocketFoundPrices (text : List Char) : List ℚ :=
  ((blocketPatterns.map (fun pat => findAll pat text)).flatten).filterMap blocketParsePrice

/- ----------------------------------------------------------------- -/
/- Pages and orchestrators. -/

/-- Abstraction of a parsed page: selector to matched element texts, and
the whole-page text. -/
structure Page where
  select : List Char → List (List Char)
  text : List Char

/-- First some-value of f over a list, in order — the shape of every
try-in-sequence loop in the scraper. -/
def firstSomeBy {α β : Type} (f : α → Option β) : List α → Option β
  | [] => none
  | a :: rest =>
    match f a with
    | some b => some b
    | none => firstSomeBy f rest

/-- As firstSomeBy, also returning which element succeeded (the scraper
logs the successful selector). -/
def firstSomeTaggedBy {α β : Type} (f : α → Option β) : List α → Option (α × β)
  | [] => none
  | a :: rest =>
    match f a with
    | some b => some (a, b)
    | none => firstSomeTaggedBy f rest

/-- PrisjaktScraper._extract_price: parse each matched element's text in
document order, first success wins; no elements means no value. -/
def prisjaktExtractBySelector (page : Page) (sel : List Char) : Option ℚ :=
  firstSomeBy prisjaktParsePrice (page.select sel)

/-- The sentinel selector that routes to text-pattern extraction. -/
def textSearchKey : List Char := "text_search_kr".data

/-- One strategy step of the Prisjakt cascade: the sentinel runs the
text-pattern extractor, anything else is a CSS selector. -/
def prisjaktStrategy (page : Page) (sel : List Char) : Option ℚ :=
  if sel = textSearchKey then prisjaktExtractFromText page.text
  else prisjaktExtractBySelector page sel

/-- The apostrophe character, used inside some CSS selector strings. -/
def sq : Char := Char.ofNat 39

/-- The ordered fallback selector list of scrape_product_price
(lines 51-62), ending in the text-search sentinel. -/
def prisjaktAlternativeSelectors : List (List Char) :=
  ["span:contains(".data ++ sq :: "kr".data ++ sq :: ")".data,
   ".price-box .price".data,
   ".lowest-price".data,
   "strong:contains(".data ++ sq :: "kr".data ++ sq :: ")".data,
   ".price".data,
   "[data-testid*=".data ++ sq :: "price".data ++ sq :: "]".data,
   ".price-value".data,
   ".current-price".data,
   ".product-price".data,
   textSearchKey]

/-- PrisjaktScraper.scrape_product_price extraction core for one fetched
page: configured selector first, then the fallback list, first success
short-circuits, all misses yield none. -/
def prisjaktScrapeCore (page : Page) (configSel : List Char) : Option ℚ :=
  match prisjaktStrategy page configSel with
  | some p => some p
  | none => firstSomeBy (prisjaktStrategy page) prisjaktAlternativeSelectors

/-- As prisjaktScrapeCore, also recording the strategy that produced the
price (the code logs it). -/
def prisjaktScrapeTagged (page : Page) (configSel : List Char) : Option (List Char × ℚ) :=
  firstSomeTaggedBy (prisjaktStrategy page) (configSel :: prisjaktAlternativeSelectors)

/-- BlocketScraper._is_price_in_range (lines 448-454). -/
def isPriceInRange (p : ℚ) (minP maxP : Option ℚ) : Bool :=
  if (match minP with | some m => decide (p < m) | none => false) then false
  else if (match maxP with | some m => decide (m < p) | none => false) then false
  else true

/-- Insert into a strictly ascending list, skipping duplicates. -/
def insertUniq (x : ℚ) : List ℚ → List ℚ
  | [] => [x]
  | y :: ys =>
    if x < y then x :: y :: ys
    else if x = y then y :: ys
    else y :: insertUniq x ys

/-- Python sorted(list(set(l))): the strictly ascending enumeration of the
distinct elements. -/
def sortedDedup (l : List ℚ) : List ℚ := l.foldr insertUniq []

/-- The Blocket listing price selectors (lines 337-352). -/
def blocketPriceSelectors : List (List Char) :=
  [".item-price".data,
   ".search-item__price".data,
   ".price-container".data,
   "[data-testid=\"price\"]".data,
   ".amount".data,
   ".price".data,
   ".listing-price".data,
   ".ad-price".data,
   "[class*=\"price\"]".data,
   "[class*=\"Price\"]".data,
   ".SearchItem-price".data,
   ".listitem-price".data,
   ".price-value".data,
   ".ad-item-price".data]

/-- The raw collected prices of _extract_search_result_prices: every
parseable element text under every listing selector, and only if that
yields nothing, the text-pattern fallback. -/
def blocketCollectedPrices (page : Page) : List ℚ :=
  let fromSel := (blocketPriceSelectors.map
    (fun sel => (page.select sel).filterMap blocketParsePrice)).flatten
  if fromSel = [] then blocketFoundPrices page.text else fromSel

/-- BlocketScraper._extract_search_result_prices: collected prices,
deduplicated and sorted ascending (line 374). -/
def blocketExtractSearchResultPrices (page : Page) : List ℚ :=
  sortedDedup (blocketCollectedPrices page)

/-- The per-page selection of scrape_product_price (lines 289-312): if any
prices were collected and any survive the min/max filter, the minimum of
the filtered set; otherwise no value (the loop then retries). -/
def blocketSelectBest (prices : List ℚ) (minP maxP : Option ℚ) : Option ℚ :=
  if prices = [] then none
  else if prices.filter (fun p => isPriceInRange p minP maxP) = [] then none
  else some (listMin (prices.filter (fun p => isPriceInRange p minP maxP)))

/-- Blocket extraction outcome for one fetched page. -/
def blocketResolvePage (page : Page) (minP maxP : Option ℚ) : Option ℚ :=
  blocketSelectBest (blocketExtractSearchResultPrices page) minP maxP

/- ----------------------------------------------------------------- -/
/- Retry loops. One Fetch per attempt; the list length is the remaining
   attempt budget (max_retries at the start of scrape_product_price). -/

/-- Outcome of one HTTP attempt: a transport failure (requests exception)
or a fetched, parsed page. -/
inductive Fetch where
  | failed : Fetch
  | page : Page → Fetch

/-- PrisjaktScraper.scrape_product_price retry loop: a transport failure
consumes an attempt and retries; a fetched page returns its extraction
outcome immediately — even when that outcome is none (line 91).
Returns the result and the number of attempts used. -/
def prisjaktScrapeRun (sel : List Char) : List Fetch → Option ℚ × Nat
  | [] => (none, 0)
  | Fetch.failed :: rest =>
    ((prisjaktScrapeRun sel rest).1, (prisjaktScrapeRun sel rest).2 + 1)
  | Fetch.page p :: _ => (prisjaktScrapeCore p sel, 1)

/-- BlocketScraper.scrape_product_price retry loop: transport failures AND
extraction misses both fall through to the next attempt (lines 313-319);
only a successful extraction returns early. -/
def blocketScrapeRun (minP maxP : Option ℚ) : List Fetch → Option ℚ × Nat
  | [] => (none, 0)
  | Fetch.failed :: rest =>
    ((blocketScrapeRun minP maxP rest).1, (blocketScrapeRun minP maxP rest).2 + 1)
  | Fetch.page p :: rest =>
    match blocketResolvePage p minP maxP with
    | some q => (some q, 1)
    | none => ((blocketScrapeRun minP maxP rest).1, (blocketScrapeRun minP maxP rest).2 + 1)

/- ----------------------------------------------------------------- -/
/- Concrete pages used by the witnesses and examples. -/

/-- The default configured selector of the Product model. -/
def priceLargeSel : List Char := ".price-large".data

/-- A single-item page where only the fallback selector .price-box .price
matches, its element reading 1 299 kr. -/
def examplePageA : Page :=
  { select := fun s => if s = ".price-box .price".data then ["1 299 kr".data] else []
    text := [] }

/-- A page matching no structural selector whose only price-bearing text
is Pris: 7 990 kr. -/
def textOnlyPage : Page :=
  { select := fun _ => []
    text := "Pris: 7 990 kr".data }

/-- A listing page whose .item-price elements carry four prices. -/
def examplePageB : Page :=
  { select := fun s =>
      if s = ".item-price".data then
        ["450 kr".data, "999 kr".data, "1 500 kr".data, "2 200 kr".data]
      else []
    text := [] }

/-- A listing page with no extractable price at all. -/
def missPageB : Page := { select := fun _ => [], text := [] }

/-- A listing page with a single 999 kr item. -/
def goodPageB : Page :=
  { select := fun s => if s = ".item-price".data then ["999 kr".data] else []
    text := [] }

/- ----------------------------------------------------------------- -/
/- Helper lemmas. -/

theorem rangeGate_eq_some {lo hi : ℚ} {o : Option ℚ} {p : ℚ} :
    rangeGate lo hi o = some p ↔ o = some p ∧ lo ≤ p ∧ p ≤ hi := by
  cases o with
  | none => simp [rangeGate]
  | some q =>
    simp only [rangeGate]
    split_ifs with h
    · constructor
      · intro he
        injection he with he
        subst he
        exact ⟨rfl, h⟩
      · rintro ⟨he, _⟩
        injection he with he
        subst he
        rfl
    · constructor
      · intro he
        exact absurd he (by simp)
      · rintro ⟨he, hr⟩
        injection he with he
        subst he
        exact absurd hr h

theorem firstSomeBy_eq_none {α β : Type} (f : α → Option β) (l : List α) :
    firstSomeBy f l = none ↔ ∀ a ∈ l, f a = none := by
  induction l with
  | nil => simp [firstSomeBy]
  | cons a rest ih =>
    simp only [firstSomeBy]
    cases h : f a with
    | some b => simp [h]
    | none => simp [h, ih]

theorem firstSomeBy_eq_some {α β : Type} {f : α → Option β} {l : List α} {b : β}
    (h : firstSomeBy f l = some b) :
    ∃ l1 a l2, l = l1 ++ a :: l2 ∧ f a = some b ∧ ∀ x ∈ l1, f x = none := by
  induction l with
  | nil => simp [firstSomeBy] at h
  | cons a rest ih =>
    simp only [firstSomeBy] at h
    cases hfa : f a with
    | some c =>
      rw [hfa] at h
      injection h with h
      exact ⟨[], a, rest, by simp, by rw [hfa, h], by simp⟩
    | none =>
      rw [hfa] at h
      obtain ⟨l1, x, l2, hl, hx, hnone⟩ := ih h
      refine ⟨a :: l1, x, l2, by rw [hl]; rfl, hx, ?_⟩
      intro y hy
      rcases List.mem_cons.mp hy with hy | hy
      · rw [hy]; exact hfa
      · exact hnone y hy

theorem firstSomeBy_mem {α β : Type} {f : α → Option β} {l : List α} {b : β}
    (h : firstSomeBy f l = some b) : ∃ a ∈ l, f a = some b := by
  obtain ⟨l1, a, l2, hl, hfa, _⟩ := firstSomeBy_eq_some h
  exact ⟨a, by rw [hl]; simp, hfa⟩

theorem firstSomeTaggedBy_eq_some {α β : Type} {f : α → Option β} {l : List α}
    {a : α} {b : β} (h : firstSomeTaggedBy f l = some (a, b)) :
    a ∈ l ∧ f a = some b := by
  induction l with
  | nil => simp [firstSomeTaggedBy] at h
  | cons x rest ih =>
    simp only [firstSomeTaggedBy] at h
    cases hfx : f x with
    | some c =>
      rw [hfx] at h
      simp only [Option.some.injEq, Prod.mk.injEq] at h
      obtain ⟨h1, h2⟩ := h
      subst h1
      subst h2
      exact ⟨List.mem_cons_self x rest, hfx⟩
    | none =>
      rw [hfx] at h
      obtain ⟨hmem, hfa⟩ := ih h
      exact ⟨List.mem_cons_of_mem _ hmem, hfa⟩

theorem firstSomeBy_eq_map_tagged {α β : Type} (f : α → Option β) (l : List α) :
    firstSomeBy f l = (firstSomeTaggedBy f l).map Prod.snd := by
  induction l with
  | nil => simp [firstSomeBy, firstSomeTaggedBy]
  | cons a rest ih =>
    simp only [firstSomeBy, firstSomeTaggedBy]
    cases h : f a with
    | some b => simp
    | none => simpa using ih

theorem foldl_min_le (xs : List ℚ) (a : ℚ) : xs.foldl min a ≤ a := by
  induction xs generalizing a with
  | nil => simp
  | cons x xs ih => exact le_trans (ih (min a x)) (min_le_left a x)

theorem foldl_min_le_mem (xs : List ℚ) : ∀ (a : ℚ) {x : ℚ}, x ∈ xs → xs.foldl min a ≤ x := by
  induction xs with
  | nil => intro a x hx; simp at hx
  | cons y ys ih =>
    intro a x hx
    rcases List.mem_cons.mp hx with h | h
    · subst h
      exact le_trans (foldl_min_le ys (min a x)) (min_le_right a x)
    · exact ih (min a y) h

theorem foldl_min_mem (xs : List ℚ) (a : ℚ) :
    xs.foldl min a = a ∨ xs.foldl min a ∈ xs := by
  induction xs generalizing a with
  | nil => left; rfl
  | cons x xs ih =>
    rcases ih (min a x) with h | h
    · rcases min_choice a x with hm | hm
      · left; rw [List.foldl_cons, h, hm]
      · right; rw [List.foldl_cons, h, hm]; exact List.mem_cons_self x xs
    · right; exact List.mem_cons_of_mem x h

theorem listMin_mem {l : List ℚ} (h : l ≠ []) : listMin l ∈ l := by
  cases l with
  | nil => exact absurd rfl h
  | cons x xs =>
    have he : listMin (x :: xs) = xs.foldl min x := rfl
    rcases foldl_min_mem xs x with hm | hm
    · rw [he, hm]; exact List.mem_cons_self x xs
    · rw [he]; exact List.mem_cons_of_mem x hm

theorem listMin_le {l : List ℚ} {x : ℚ} (hx : x ∈ l) : listMin l ≤ x := by
  cases l with
  | nil => simp at hx
  | cons y ys =>
    rcases List.mem_cons.mp hx with h | h
    · subst h; exact foldl_min_le ys x
    · exact foldl_min_le_mem ys y h

theorem foldl_max_ge (xs : List ℚ) (a : ℚ) : a ≤ xs.foldl max a := by
  induction xs generalizing a with
  | nil => simp
  | cons x xs ih => exact le_trans (le_max_left a x) (ih (max a x))

theorem foldl_max_ge_mem (xs : List ℚ) : ∀ (a : ℚ) {x : ℚ}, x ∈ xs → x ≤ xs.foldl max a := by
  induction xs with
  | nil => intro a x hx; simp at hx
  | cons y ys ih =>
    intro a x hx
    rcases List.mem_cons.mp hx with h | h
    · subst h
      exact le_trans (le_max_right a x) (foldl_max_ge ys (max a x))
    · exact ih (max a y) h

theorem foldl_max_mem (xs : List ℚ) (a : ℚ) :
    xs.foldl max a = a ∨ xs.foldl max a ∈ xs := by
  induction xs generalizing a with
  | nil => left; rfl
  | cons x xs ih =>
    rcases ih (max a x) with h | h
    · rcases max_choice a x with hm | hm
      · left; rw [List.foldl_cons, h, hm]
      · right; rw [List.foldl_cons, h, hm]; exact List.mem_cons_self x xs
    · right; exact List.mem_cons_of_mem x h

theorem listMax_mem {l : List ℚ} (h : l ≠ []) : listMax l ∈ l := by
  cases l with
  | nil => exact absurd rfl h
  | cons x xs =>
    have he : listMax (x :: xs) = xs.foldl max x := rfl
    rcases foldl_max_mem xs x with hm | hm
    · rw [he, hm]; exact List.mem_cons_self x xs
    · rw [he]; exact List.mem_cons_of_mem x hm

theorem le_listMax {l : List ℚ} {x : ℚ} (hx : x ∈ l) : x ≤ listMax l := by
  cases l with
  | nil => simp at hx
  | cons y ys =>
    rcases List.mem_cons.mp hx with h | h
    · subst h; exact foldl_max_ge ys x
    · exact foldl_max_ge_mem ys y h

theorem mem_insertUniq {x a : ℚ} {l : List ℚ} :
    a ∈ insertUniq x l ↔ a = x ∨ a ∈ l := by
  induction l with
  | nil => simp [insertUniq]
  | cons y ys ih =>
    simp only [insertUniq]
    split_ifs with h1 h2
    · exact List.mem_cons
    · subst h2
      constructor
      · exact Or.inr
      · rintro (rfl | hm)
        · exact List.mem_cons_self _ _
        · exact hm
    · rw [List.mem_cons, ih, List.mem_cons]
      tauto

theorem sorted_insertUniq {x : ℚ} {l : List ℚ} (h : List.Sorted (· < ·) l) :
    List.Sorted (· < ·) (insertUniq x l) := by
  induction l with
  | nil => simp [insertUniq]
  | cons y ys ih =>
    rw [List.sorted_cons] at h
    obtain ⟨hy, hys⟩ := h
    simp only [insertUniq]
    split_ifs with h1 h2
    · rw [List.sorted_cons]
      constructor
      · intro b hb
        rcases List.mem_cons.mp hb with hb | hb
        · subst hb; exact h1
        · exact lt_trans h1 (hy b hb)
      · rw [List.sorted_cons]; exact ⟨hy, hys⟩
    · rw [List.sorted_cons]; exact ⟨hy, hys⟩
    · rw [List.sorted_cons]
      constructor
      · intro b hb
        rcases mem_insertUniq.mp hb with hb | hb
        · rw [hb]
          rcases lt_trichotomy x y with hlt | heq | hgt
          · exact absurd hlt h1
          · exact absurd heq h2
          · exact hgt
        · exact hy b hb
      · exact ih hys

theorem sorted_sortedDedup (l : List ℚ) : List.Sorted (· < ·) (sortedDedup l) := by
  induction l with
  | nil => simp [sortedDedup]
  | cons x xs ih => exact sorted_insertUniq ih

theorem mem_sortedDedup {a : ℚ} {l : List ℚ} : a ∈ sortedDedup l ↔ a ∈ l := by
  induction l with
  | nil => simp [sortedDedup]
  | cons x xs ih =>
    show a ∈ insertUniq x (sortedDedup xs) ↔ _
    rw [mem_insertUniq, ih, List.mem_cons]

theorem countOcc_eq_zero {c : Char} {l : List Char} :
    countOcc c l = 0 ↔ c ∉ l := by
  induction l with
  | nil => simp [countOcc]
  | cons a r ih =>
    simp only [countOcc]
    by_cases h : a = c
    · subst h
      simp
    · rw [if_neg h, Nat.zero_add, ih]
      constructor
      · intro hnr hm
        rcases List.mem_cons.mp hm with he | hm2
        · exact h he.symm
        · exact hnr hm2
      · intro hn hm
        exact hn (List.mem_cons_of_mem a hm)

theorem countOcc_one_decomp {c : Char} {t : List Char} (h : countOcc c t = 1) :
    ∃ A B, t = A ++ c :: B ∧ c ∉ A ∧ c ∉ B := by
  induction t with
  | nil => simp [countOcc] at h
  | cons a r ih =>
    by_cases hac : a = c
    · subst hac
      rw [countOcc, if_pos rfl] at h
      have hr : countOcc a r = 0 := by omega
      exact ⟨[], r, rfl, by simp, countOcc_eq_zero.mp hr⟩
    · rw [countOcc, if_neg hac] at h
      simp only [Nat.zero_add] at h
      obtain ⟨A, B, hT, hA, hB⟩ := ih h
      refine ⟨a :: A, B, by rw [hT]; rfl, ?_, hB⟩
      intro hmem
      rcases List.mem_cons.mp hmem with he | he
      · exact hac he.symm
      · exact hA he

theorem takeWhile_ne_append {c : Char} {A B : List Char} (hA : c ∉ A) :
    (A ++ c :: B).takeWhile (· != c) = A := by
  induction A with
  | nil =>
    simp only [List.nil_append]
    rw [List.takeWhile_cons]
    simp
  | cons a A ih =>
    have hac : a ≠ c := fun he => hA (he ▸ List.mem_cons_self a A)
    have hA2 : c ∉ A := fun hm => hA (List.mem_cons_of_mem a hm)
    rw [List.cons_append, List.takeWhile_cons, if_pos (by simpa using hac), ih hA2]

theorem length_takeWhile_lt {c : Char} {l : List Char} (h : c ∈ l) :
    (l.takeWhile (· != c)).length < l.length := by
  induction l with
  | nil => simp at h
  | cons a r ih =>
    by_cases hac : a = c
    · subst hac
      simp [List.takeWhile]
    · rcases List.mem_cons.mp h with he | he
      · exact absurd he.symm hac
      · simp only [List.takeWhile]
        rw [show (a != c) = true by simpa using hac]
        simpa using ih he

theorem pyFindNat_decomp {c : Char} {A B : List Char} (hA : c ∉ A) :
    pyFindNat (A ++ c :: B) c = A.length := by
  rw [pyFindNat, takeWhile_ne_append hA]

theorem pyRFindNat_decomp {c : Char} {A B : List Char} (hB : c ∉ B) :
    pyRFindNat (A ++ c :: B) c = A.length := by
  have hrev : (A ++ c :: B).reverse = B.reverse ++ c :: A.reverse := by
    simp
  have hBrev : c ∉ B.reverse := by simpa using hB
  rw [pyRFindNat, hrev, takeWhile_ne_append hBrev]
  simp only [List.length_append, List.length_reverse, List.length_cons]
  omega

theorem pyFindNat_eq_pyRFindNat {c : Char} {t : List Char}
    (h : countOcc c t = 1) : pyFindNat t c = pyRFindNat t c := by
  obtain ⟨A, B, rfl, hA, hB⟩ := countOcc_one_decomp h
  rw [pyFindNat_decomp hA, pyRFindNat_decomp hB]

theorem mem_of_countOcc_one {c : Char} {t : List Char}
    (h : countOcc c t = 1) : c ∈ t := by
  obtain ⟨A, B, rfl, _, _⟩ := countOcc_one_decomp h
  simp

theorem pyRFindNat_ne_of_counts {t : List Char}
    (h1 : countOcc ',' t = 1) (h2 : countOcc '.' t = 1) :
    pyRFindNat t ',' ≠ pyRFindNat t '.' := by
  obtain ⟨A, B, hT, hA, hB⟩ := countOcc_one_decomp h1
  obtain ⟨A2, B2, hT2, hA2, hB2⟩ := countOcc_one_decomp h2
  intro heq
  have e1 : pyRFindNat t ',' = A.length := by rw [hT]; exact pyRFindNat_decomp hB
  have e2 : pyRFindNat t '.' = A2.length := by rw [hT2]; exact pyRFindNat_decomp hB2
  rw [e1, e2] at heq
  have happ : A ++ ',' :: B = A2 ++ '.' :: B2 := by rw [← hT, ← hT2]
  obtain ⟨_, hcons⟩ := List.append_inj happ heq
  injection hcons with hch _
  exact absurd hch (by decide)

theorem comma_cond_iff {t : List Char} (h : ',' ∈ t) :
    (t.length - pyRFindNat t ',' ≤ 3) ↔ charsAfterComma t ≤ 2 := by
  have hk : charsAfterComma t < t.length := by
    have := length_takeWhile_lt (List.mem_reverse.mpr h)
    simpa [charsAfterComma] using this
  have : pyRFindNat t ',' = t.length - 1 - charsAfterComma t := rfl
  rw [this]
  omega

theorem prisjaktParsePrice_bounds {s : List Char} {p : ℚ}
    (h : prisjaktParsePrice s = some p) : 0 ≤ p ∧ p ≤ 10000000 := by
  rw [prisjaktParsePrice] at h
  exact (rangeGate_eq_some.mp h).2

theorem blocketParsePrice_bounds {s : List Char} {p : ℚ}
    (h : blocketParsePrice s = some p) : 100 ≤ p ∧ p ≤ 100000 := by
  rw [blocketParsePrice] at h
  split_ifs at h
  exact (rangeGate_eq_some.mp h).2

theorem prisjaktFoundPrices_bounds {text : List Char} {p : ℚ}
    (h : p ∈ prisjaktFoundPrices text) : 100 ≤ p ∧ p ≤ 100000 := by
  rw [prisjaktFoundPrices] at h
  obtain ⟨m, _, hacc⟩ := List.mem_filterMap.mp h
  rw [prisjaktTextAccept] at hacc
  exact (rangeGate_eq_some.mp hacc).2

theorem prisjaktExtractFromText_none_iff (text : List Char) :
    prisjaktExtractFromText text = none ↔ prisjaktFoundPrices text = [] := by
  rw [prisjaktExtractFromText]
  split_ifs with h0 h1
  · exact ⟨fun _ => h0, fun _ => rfl⟩
  · exact ⟨fun hc => hc.elim, fun hc => absurd hc h0⟩
  · exact ⟨fun hc => hc.elim, fun hc => absurd hc h0⟩

theorem prisjaktExtractFromText_some {text : List Char} {p : ℚ}
    (h : prisjaktExtractFromText text = some p) :
    p ∈ prisjaktFoundPrices text ∧
    (∀ q ∈ prisjaktFoundPrices text, 1000 ≤ q → q ≤ p) ∧
    ((∃ q ∈ prisjaktFoundPrices text, 1000 ≤ q) → 1000 ≤ p) ∧
    ((∀ q ∈ prisjaktFoundPrices text, q < 1000) → ∀ q ∈ prisjaktFoundPrices text, q ≤ p) := by
  rw [prisjaktExtractFromText] at h
  split_ifs at h with h0 h1
  · -- no accepted value reaches 1000: the maximum of all accepted values
    injection h with h
    subst h
    have hmem : listMax (prisjaktFoundPrices text) ∈ prisjaktFoundPrices text :=
      listMax_mem h0
    have hnone : ∀ q ∈ prisjaktFoundPrices text, ¬(1000 ≤ q) := by
      intro q hq hge
      have : q ∈ (prisjaktFoundPrices text).filter (fun p => decide (1000 ≤ p)) :=
        List.mem_filter.mpr ⟨hq, by simpa using hge⟩
      rw [h1] at this
      simp at this
    refine ⟨hmem, ?_, ?_, ?_⟩
    · intro q hq hge
      exact absurd hge (hnone q hq)
    · rintro ⟨q, hq, hge⟩
      exact absurd hge (hnone q hq)
    · intro _ q hq
      exact le_listMax hq
  · -- some accepted value reaches 1000: the maximum of those
    injection h with h
    subst h
    set valid := (prisjaktFoundPrices text).filter (fun p => decide (1000 ≤ p)) with hva
    have hmemv : listMax valid ∈ valid := listMax_mem h1
    have hf := List.mem_filter.mp hmemv
    have hge : (1000 : ℚ) ≤ listMax valid := by simpa using hf.2
    refine ⟨hf.1, ?_, fun _ => hge, ?_⟩
    · intro q hq hq1000
      exact le_listMax (List.mem_filter.mpr ⟨hq, by simpa using hq1000⟩)
    · intro hall _ _
      exact absurd hge (not_le.mpr (hall _ hf.1))

theorem prisjaktExtractFromText_bounds {text : List Char} {p : ℚ}
    (h : prisjaktExtractFromText text = some p) : 100 ≤ p ∧ p ≤ 100000 :=
  prisjaktFoundPrices_bounds (prisjaktExtractFromText_some h).1

theorem prisjaktStrategy_bounds {page : Page} {s : List Char} {p : ℚ}
    (h : prisjaktStrategy page s = some p) :
    (0 ≤ p ∧ p ≤ 10000000) ∧ (s = textSearchKey → 100 ≤ p ∧ p ≤ 100000) := by
  rw [prisjaktStrategy] at h
  split_ifs at h with hs
  · have hb := prisjaktExtractFromText_bounds h
    exact ⟨⟨le_trans (by norm_num) hb.1, le_trans hb.2 (by norm_num)⟩, fun _ => hb⟩
  · rw [prisjaktExtractBySelector] at h
    obtain ⟨m, _, hparse⟩ := firstSomeBy_mem h
    exact ⟨prisjaktParsePrice_bounds hparse, fun he => absurd he hs⟩

theorem prisjaktScrapeCore_eq (page : Page) (sel : List Char) :
    prisjaktScrapeCore page sel =
      firstSomeBy (prisjaktStrategy page) (sel :: prisjaktAlternativeSelectors) := by
  show (match prisjaktStrategy page sel with
        | some p => some p
        | none => firstSomeBy (prisjaktStrategy page) prisjaktAlternativeSelectors) = _
  cases h : prisjaktStrategy page sel with
  | some p => simp [firstSomeBy, h]
  | none => simp [firstSomeBy, h]

theorem blocketCollectedPrices_bounds {page : Page} {p : ℚ}
    (h : p ∈ blocketCollectedPrices page) : 100 ≤ p ∧ p ≤ 100000 := by
  rw [blocketCollectedPrices] at h
  split_ifs at h with h0
  · rw [blocketFoundPrices] at h
    obtain ⟨m, _, hparse⟩ := List.mem_filterMap.mp h
    exact blocketParsePrice_bounds hparse
  · obtain ⟨l, hl, hpl⟩ := List.mem_flatten.mp h
    obtain ⟨sel, _, hsel⟩ := List.mem_map.mp hl
    rw [← hsel] at hpl
    obtain ⟨m, _, hparse⟩ := List.mem_filterMap.mp hpl
    exact blocketParsePrice_bounds hparse

theorem blocketSelectBest_some_char {prices : List ℚ} {mn mx : Option ℚ} {p : ℚ}
    (h : blocketSelectBest prices mn mx = some p) :
    prices.filter (fun q => isPriceInRange q mn mx) ≠ [] ∧
    p = listMin (prices.filter (fun q => isPriceInRange q mn mx)) := by
  rw [blocketSelectBest] at h
  split_ifs at h with h1 h2
  injection h with h
  exact ⟨h2, h.symm⟩

theorem blocketSelectBest_of_nonempty {prices : List ℚ} {mn mx : Option ℚ}
    (h : prices.filter (fun q => isPriceInRange q mn mx) ≠ []) :
    blocketSelectBest prices mn mx =
      some (listMin (prices.filter (fun q => isPriceInRange q mn mx))) := by
  have hp : prices ≠ [] := by
    intro he
    rw [he] at h
    exact h rfl
  rw [blocketSelectBest, if_neg hp, if_neg h]

/- ----------------------------------------------------------------- -/
/- Claim theorems. -/

/-- Claim C4: in the multi-item listing strategy, whenever the collected
prices restricted by the target's optional min/max filter form a non-empty
set, the resolved price is the minimum of that filtered set; and for
collected prices 450, 999, 1500, 2200 under filter min 900 and max 2000
the resolved price is 999. -/
theorem c4_listing_minimum :
    (∀ (page : Page) (mn mx : Option ℚ),
      (blocketExtractSearchResultPrices page).filter (fun q => isPriceInRange q mn mx) ≠ [] →
      blocketResolvePage page mn mx =
        some (listMin ((blocketExtractSearchResultPrices page).filter
          (fun q => isPriceInRange q mn mx))) ∧
      listMin ((blocketExtractSearchResultPrices page).filter (fun q => isPriceInRange q mn mx)) ∈
        (blocketExtractSearchResultPrices page).filter (fun q => isPriceInRange q mn mx) ∧
      (∀ x ∈ (blocketExtractSearchResultPrices page).filter (fun q => isPriceInRange q mn mx),
        listMin ((blocketExtractSearchResultPrices page).filter
          (fun q => isPriceInRange q mn mx)) ≤ x)) ∧
    blocketSelectBest [450, 999, 1500, 2200] (some 900) (some 2000) = some 999 := by
  constructor
  · intro page mn mx hne
    refine ⟨blocketSelectBest_of_nonempty hne, listMin_mem hne, ?_⟩
    intro x hx
    exact listMin_le hx
  · decide

/-- Claim C4 witness: the general minimum-selection statement applied to a
concrete listing page with items at 450, 999, 1500, 2200 kr and the
filter min 900, max 2000. -/
theorem c4_witness :
    blocketResolvePage examplePageB (some 900) (some 2000) =
      some (listMin ((blocketExtractSearchResultPrices examplePageB).filter
        (fun q => isPriceInRange q (some 900) (some 2000)))) ∧
    listMin ((blocketExtractSearchResultPrices examplePageB).filter
      (fun q => isPriceInRange q (some 900) (some 2000))) ∈
      (blocketExtractSearchResultPrices examplePageB).filter
        (fun q => isPriceInRange q (some 900) (some 2000)) ∧
    (∀ x ∈ (blocketExtractSearchResultPrices examplePageB).filter
        (fun q => isPriceInRange q (some 900) (some 2000)),
      listMin ((blocketExtractSearchResultPrices examplePageB).filter
        (fun q => isPriceInRange q (some 900) (some 2000))) ≤ x) :=
  c4_listing_minimum.1 examplePageB (some 900) (some 2000) (by decide)

/-- Claim C9 counterexample: the claim says the Number Normalizer's first
cleaning step keeps hyphens, but the Prisjakt cleaning regex has no hyphen
in its class: cleaning the two-character string hyphen-five keeps only the
digit, while the spec-worded cleaning keeps both characters. -/
theorem c9_counterexample :
    prisjaktCleanStep "-5".data ≠ specCleanStep "-5".data := by decide

/-- Claim C9 amended: the Prisjakt cleaning step removes exactly those
characters that are not a digit, comma, dot, or whitespace (hyphens are
removed); the Blocket cleaning step additionally keeps the hyphen. -/
theorem c9_cleaning_step :
    (∀ (s : List Char) (c : Char), c ∈ prisjaktCleanStep s ↔
      c ∈ s ∧ (c.isDigit = true ∨ c = ',' ∨ c = '.' ∨ isPySpace c = true)) ∧
    (∀ (s : List Char) (c : Char), c ∈ blocketCleanStep s ↔
      c ∈ s ∧ (c.isDigit = true ∨ c = ',' ∨ c = '.' ∨ isPySpace c = true ∨ c = '-')) ∧
    prisjaktCleanStep "-5".data = "5".data ∧
    blocketCleanStep "-5".data = "-5".data := by
  refine ⟨?_, ?_, by decide, by decide⟩
  · intro s c
    rw [prisjaktCleanStep, List.mem_filter]
    constructor
    · rintro ⟨hm, hk⟩
      refine ⟨hm, ?_⟩
      simp only [prisjaktKeep, Bool.or_eq_true, beq_iff_eq] at hk
      tauto
    · rintro ⟨hm, hk⟩
      refine ⟨hm, ?_⟩
      simp only [prisjaktKeep, Bool.or_eq_true, beq_iff_eq]
      tauto
  · intro s c
    rw [blocketCleanStep, List.mem_filter]
    constructor
    · rintro ⟨hm, hk⟩
      refine ⟨hm, ?_⟩
      simp only [blocketKeep, Bool.or_eq_true, beq_iff_eq] at hk
      tauto
    · rintro ⟨hm, hk⟩
      refine ⟨hm, ?_⟩
      simp only [blocketKeep, Bool.or_eq_true, beq_iff_eq]
      tauto

/-- Claim C10: the listing price list produced by
_extract_search_result_prices is strictly increasing — sorted ascending
with duplicates removed — whichever collection path produced the raw
prices, and it contains exactly the collected values. -/
theorem c10_sorted_dedup :
    (∀ page : Page, List.Sorted (· < ·) (blocketExtractSearchResultPrices page)) ∧
    (∀ (page : Page) (x : ℚ),
      x ∈ blocketExtractSearchResultPrices page ↔ x ∈ blocketCollectedPrices page) := by
  constructor
  · intro page
    exact sorted_sortedDedup _
  · intro page x
    exact mem_sortedDedup

/-- Claim C1 counterexample: the claim fails twice on the code. A lone
comma with exactly 3 characters after it is a thousands separator in the
code (12,999 parses to 12999, not 12.999 as the claim's at-most-3 rule
demands), and with several separators of both kinds Blocket compares first
occurrences, not last (100,2.3,4 parses to 1002.34 where the claim's
later-separator rule fails to parse). -/
theorem c1_counterexample :
    specParsePrisjakt "12,999".data ≠ prisjaktParsePrice "12,999".data ∧
    specParseBlocket "100,2.3,4".data ≠ blocketParsePrice "100,2.3,4".data := by
  exact ⟨by decide, by decide⟩

/-- Claim C1 amended: with both a comma and a dot present the Prisjakt
normalizer treats the separator whose last occurrence comes later as the
decimal point and removes the other, exactly the spec-worded rule, while
the Blocket normalizer compares first occurrences — the two coincide
whenever each separator occurs exactly once; with only a comma present it
is a decimal point iff at most 2 characters follow the last comma; the
claim's three examples hold. -/
theorem c1_separator_resolution :
    (∀ t : List Char, ',' ∈ t → '.' ∈ t → prisjaktResolveSep t = specResolveSep t) ∧
    (∀ t : List Char, ' ' ∉ t → countOcc ',' t = 1 → countOcc '.' t = 1 →
      blocketResolveSep t = prisjaktResolveSep t) ∧
    (∀ t : List Char, ',' ∈ t → '.' ∉ t →
      (charsAfterComma t ≤ 2 → prisjaktResolveSep t = commaToDot t) ∧
      (2 < charsAfterComma t → prisjaktResolveSep t = t.filter (· != ','))) ∧
    (∀ t : List Char, ' ' ∉ t → ',' ∈ t → '.' ∉ t →
      blocketResolveSep t = prisjaktResolveSep t) ∧
    prisjaktParsePrice "1,234.56".data = some (1234.56 : ℚ) ∧
    prisjaktParsePrice "1.234,56".data = some (1234.56 : ℚ) ∧
    prisjaktParsePrice "12,99".data = some (12.99 : ℚ) := by
  have he1 : (1234.56 : ℚ) = mkRat 123456 100 := by rw [Rat.mkRat_eq_div]; norm_num
  have he2 : (12.99 : ℚ) = mkRat 1299 100 := by rw [Rat.mkRat_eq_div]; norm_num
  refine ⟨?_, ?_, ?_, ?_, by rw [he1]; decide, by rw [he1]; decide, by rw [he2]; decide⟩
  · intro t h1 h2
    have hb : ',' ∈ t ∧ '.' ∈ t := ⟨h1, h2⟩
    rw [prisjaktResolveSep, specResolveSep, if_pos hb, if_pos hb]
  · intro t hsp h1 h2
    have hc : ',' ∈ t := mem_of_countOcc_one h1
    have hd : '.' ∈ t := mem_of_countOcc_one h2
    have hb : ',' ∈ t ∧ '.' ∈ t := ⟨hc, hd⟩
    have hfc : pyFindNat t ',' = pyRFindNat t ',' := pyFindNat_eq_pyRFindNat h1
    have hfd : pyFindNat t '.' = pyRFindNat t '.' := pyFindNat_eq_pyRFindNat h2
    have hne : pyRFindNat t ',' ≠ pyRFindNat t '.' := pyRFindNat_ne_of_counts h1 h2
    rw [blocketResolveSep, prisjaktResolveSep, if_neg hsp, if_pos hb, if_pos hb, hfc, hfd]
    rcases Nat.lt_or_ge (pyRFindNat t ',') (pyRFindNat t '.') with hlt | hge
    · rw [if_pos hlt, if_neg (show ¬pyRFindNat t ',' > pyRFindNat t '.' by omega)]
    · have hgt : pyRFindNat t '.' < pyRFindNat t ',' := by
        rcases Nat.eq_or_lt_of_le hge with he | hl
        · exact absurd he.symm hne
        · exact hl
      rw [if_neg (show ¬pyRFindNat t ',' < pyRFindNat t '.' by omega),
        if_pos (show pyRFindNat t ',' > pyRFindNat t '.' by omega)]
  · intro t hc hd
    have hnb : ¬(',' ∈ t ∧ '.' ∈ t) := fun hb => hd hb.2
    rw [prisjaktResolveSep, if_neg hnb, if_pos hc]
    constructor
    · intro hle
      rw [if_pos ((comma_cond_iff hc).mpr hle)]
    · intro hgt
      rw [if_neg (show ¬(t.length - pyRFindNat t ',' ≤ 3) from
        fun hcon => by have := (comma_cond_iff hc).mp hcon; omega)]
  · intro t hsp hc hd
    have hnb : ¬(',' ∈ t ∧ '.' ∈ t) := fun hb => hd hb.2
    rw [blocketResolveSep, prisjaktResolveSep, if_neg hsp, if_neg hnb, if_neg hnb, if_pos hc]

/-- Claim C1 witness: the count-one agreement of the two normalizers'
both-separators rule, applied at a concrete separator-resolution input. -/
theorem c1_witness :
    blocketResolveSep "1.234,56".data = prisjaktResolveSep "1.234,56".data :=
  c1_separator_resolution.2.1 "1.234,56".data (by decide) (by decide) (by decide)

/-- Claim C5 counterexample: the claim says space removal does not disable
comma/dot resolution, but Blocket's chain skips comma/dot handling
entirely when a space is present: on the input 3 997,50 kr the spec-worded
normalizer yields 3997.5 while the Blocket code fails to parse. -/
theorem c5_counterexample :
    specParseBlocket "3 997,50 kr".data = some (3997.5 : ℚ) ∧
    blocketParsePrice "3 997,50 kr".data = none := by
  have he : (3997.5 : ℚ) = mkRat 39975 10 := by rw [Rat.mkRat_eq_div]; norm_num
  exact ⟨by rw [he]; decide, by decide⟩

/-- Claim C5 amended: whitespace between digit groups is removed as a pure
thousands separator by both normalizers; in Prisjakt the removal happens
before separator resolution, which still applies to the remaining comma or
dot, while in Blocket a present space removes spaces and skips comma/dot
resolution entirely — so 3 997 kr parses to 3997 on both, but
3 997,50 kr parses to 3997.5 only in Prisjakt and fails in Blocket. -/
theorem c5_space_precedence :
    (∀ t : List Char, ' ' ∈ t → blocketResolveSep t = despace t) ∧
    (∀ l : List Char, ' ' ∉ despace l) ∧
    (∀ s : List Char,
      prisjaktNormalize s = pyFloat? (prisjaktResolveSep (despace (stripWS (prisjaktCleanStep s))))) ∧
    prisjaktParsePrice "3 997 kr".data = some 3997 ∧
    blocketParsePrice "3 997 kr".data = some 3997 ∧
    prisjaktParsePrice "3 997,50 kr".data = some (3997.5 : ℚ) ∧
    blocketParsePrice "3 997,50 kr".data = none := by
  have he : (3997.5 : ℚ) = mkRat 39975 10 := by rw [Rat.mkRat_eq_div]; norm_num
  refine ⟨?_, ?_, fun s => rfl, by decide, by decide, by rw [he]; decide, by decide⟩
  · intro t ht
    rw [blocketResolveSep, if_pos ht]
  · intro l hm
    have := List.mem_filter.mp hm
    simp at this

/-- Claim C5 witness: the space branch of the Blocket normalizer applied
at a concrete spaced input. -/
theorem c5_witness :
    blocketResolveSep "3 997".data = despace "3 997".data :=
  c5_space_precedence.1 "3 997".data (by decide)

/-- Claim C2: the single-item cascade tries the configured selector, then
the ordered fallback list whose last entry is the text-pattern sentinel;
it advances only on no-value, the first success short-circuits (the
position of the winning strategy is a prefix of misses), all-miss yields
an explicit none; and on a page where only the fallback
.price-box .price holds 1 299 kr, the resolved price is 1299. -/
theorem c2_selector_cascade :
    (∀ (page : Page) (sel : List Char), prisjaktScrapeCore page sel =
      firstSomeBy (prisjaktStrategy page) (sel :: prisjaktAlternativeSelectors)) ∧
    (∀ page : Page, prisjaktStrategy page textSearchKey = prisjaktExtractFromText page.text) ∧
    prisjaktAlternativeSelectors.getLast? = some textSearchKey ∧
    (∀ (page : Page) (sel : List Char), prisjaktScrapeCore page sel = none ↔
      ∀ s ∈ sel :: prisjaktAlternativeSelectors, prisjaktStrategy page s = none) ∧
    (∀ (page : Page) (sel : List Char) (p : ℚ), prisjaktScrapeCore page sel = some p →
      ∃ l1 s l2, sel :: prisjaktAlternativeSelectors = l1 ++ s :: l2 ∧
        prisjaktStrategy page s = some p ∧ ∀ x ∈ l1, prisjaktStrategy page x = none) ∧
    prisjaktScrapeCore examplePageA priceLargeSel = some 1299 := by
  refine ⟨prisjaktScrapeCore_eq, ?_, by decide, ?_, ?_, by decide⟩
  · intro page
    rw [prisjaktStrategy, if_pos rfl]
  · intro page sel
    rw [prisjaktScrapeCore_eq]
    exact firstSomeBy_eq_none (prisjaktStrategy page) (sel :: prisjaktAlternativeSelectors)
  · intro page sel p h
    rw [prisjaktScrapeCore_eq] at h
    exact firstSomeBy_eq_some h

/-- Claim C2 witness: the first-success decomposition applied to the
concrete page whose fallback selector holds 1 299 kr. -/
theorem c2_witness :
    ∃ l1 s l2, priceLargeSel :: prisjaktAlternativeSelectors = l1 ++ s :: l2 ∧
      prisjaktStrategy examplePageA s = some 1299 ∧
      ∀ x ∈ l1, prisjaktStrategy examplePageA x = none :=
  c2_selector_cascade.2.2.2.2.1 examplePageA priceLargeSel 1299 (by decide)

/-- Claim C3: the text-pattern extractor returns no value iff no pattern
match was accepted; every accepted value lies in the range 100 to 100000;
a returned price is an accepted value, the maximum among accepted values
at least 1000 when any exist, else the maximum of all accepted values;
and a page whose only price-bearing text is Pris: 7 990 kr and which
matches no structural selector resolves to 7990 via this fallback. -/
theorem c3_text_pattern_policy :
    (∀ text : List Char,
      (prisjaktExtractFromText text = none ↔ prisjaktFoundPrices text = [])) ∧
    (∀ (text : List Char) (p : ℚ), p ∈ prisjaktFoundPrices text →
      100 ≤ p ∧ p ≤ 100000) ∧
    (∀ (text : List Char) (p : ℚ), prisjaktExtractFromText text = some p →
      p ∈ prisjaktFoundPrices text ∧ 100 ≤ p ∧ p ≤ 100000 ∧
      (∀ q ∈ prisjaktFoundPrices text, 1000 ≤ q → q ≤ p) ∧
      ((∃ q ∈ prisjaktFoundPrices text, 1000 ≤ q) → 1000 ≤ p) ∧
      ((∀ q ∈ prisjaktFoundPrices text, q < 1000) → ∀ q ∈ prisjaktFoundPrices text, q ≤ p)) ∧
    prisjaktScrapeCore textOnlyPage priceLargeSel = some 7990 := by
  refine ⟨prisjaktExtractFromText_none_iff, fun text p => prisjaktFoundPrices_bounds, ?_,
    by decide⟩
  intro text p h
  obtain ⟨hmem, hmax, hex, hall⟩ := prisjaktExtractFromText_some h
  have hb := prisjaktFoundPrices_bounds hmem
  exact ⟨hmem, hb.1, hb.2, hmax, hex, hall⟩

/-- Claim C3 witness: the selection-policy characterization applied to the
concrete page text Pris: 7 990 kr, whose accepted values are 7990 and
990. -/
theorem c3_witness :
    7990 ∈ prisjaktFoundPrices "Pris: 7 990 kr".data ∧
    (100 : ℚ) ≤ 7990 ∧ (7990 : ℚ) ≤ 100000 ∧
    (∀ q ∈ prisjaktFoundPrices "Pris: 7 990 kr".data, 1000 ≤ q → q ≤ 7990) ∧
    ((∃ q ∈ prisjaktFoundPrices "Pris: 7 990 kr".data, 1000 ≤ q) → (1000 : ℚ) ≤ 7990) ∧
    ((∀ q ∈ prisjaktFoundPrices "Pris: 7 990 kr".data, q < 1000) →
      ∀ q ∈ prisjaktFoundPrices "Pris: 7 990 kr".data, q ≤ 7990) :=
  c3_text_pattern_policy.2.2.1 "Pris: 7 990 kr".data 7990 (by decide)

/-- Claim C6: each normalizer returns an explicit no-value result exactly
when float parsing fails or the parsed value falls outside its caller's
plausibility range (never a numeric default: a some-result always equals
the normalized value); 50 is rejected by the text-pattern acceptance with
range 100 to 100000 but accepted by the selector parse with range 0 to
10000000. -/
theorem c6_range_gate :
    (∀ s : List Char, prisjaktParsePrice s = none ↔
      ∀ p : ℚ, prisjaktNormalize s = some p → ¬(0 ≤ p ∧ p ≤ 10000000)) ∧
    (∀ (s : List Char) (p : ℚ), prisjaktParsePrice s = some p →
      prisjaktNormalize s = some p ∧ 0 ≤ p ∧ p ≤ 10000000) ∧
    (∀ s : List Char, blocketParsePrice s = none ↔
      ∀ p : ℚ, blocketNormalize s = some p → ¬(100 ≤ p ∧ p ≤ 100000)) ∧
    (∀ (s : List Char) (p : ℚ), blocketParsePrice s = some p →
      blocketNormalize s = some p ∧ 100 ≤ p ∧ p ≤ 100000) ∧
    prisjaktTextAccept "50".data = none ∧
    prisjaktParsePrice "50".data = some 50 := by
  refine ⟨?_, ?_, ?_, ?_, by decide, by decide⟩
  · intro s
    rw [prisjaktParsePrice]
    cases h : prisjaktNormalize s with
    | none => simp [rangeGate]
    | some q =>
      simp only [rangeGate]
      split_ifs with hr
      · constructor
        · intro hc
          exact absurd hc (by simp)
        · intro hall
          exact absurd hr (hall q rfl)
      · constructor
        · intro _ p hp
          injection hp with hp
          rw [← hp]
          exact hr
        · intro _
          rfl
  · intro s p h
    rw [prisjaktParsePrice] at h
    have hh := rangeGate_eq_some.mp h
    exact ⟨hh.1, hh.2.1, hh.2.2⟩
  · intro s
    rw [blocketParsePrice]
    split_ifs with h1 h2
    · subst h1
      have hn : blocketNormalize ([] : List Char) = none := by decide
      simp [hn]
    · have hn : blocketNormalize s = none := by
        rw [blocketNormalize, h2]
        decide
      simp [hn]
    · cases h : blocketNormalize s with
      | none => simp [rangeGate]
      | some q =>
        simp only [rangeGate]
        split_ifs with hr
        · constructor
          · intro hc
            exact absurd hc (by simp)
          · intro hall
            exact absurd hr (hall q rfl)
        · constructor
          · intro _ p hp
            injection hp with hp
            rw [← hp]
            exact hr
          · intro _
            rfl
  · intro s p h
    rw [blocketParsePrice] at h
    split_ifs at h
    have hh := rangeGate_eq_some.mp h
    exact ⟨hh.1, hh.2.1, hh.2.2⟩

/-- Claim C6 witness: the some-result characterization of the Prisjakt
parse applied at the concrete input 50. -/
theorem c6_witness :
    prisjaktNormalize "50".data = some 50 ∧ (0 : ℚ) ≤ 50 ∧ (50 : ℚ) ≤ 10000000 :=
  c6_range_gate.2.1 "50".data 50 (by decide)

/-- Claim C7 counterexample: a Blocket fetch whose first page yields an
extraction miss is retried — the second attempt is consumed and can even
succeed — so an extraction-logic failure does not immediately produce the
failed outcome as the claim states for every target. -/
theorem c7_counterexample :
    blocketScrapeRun none none [Fetch.page missPageB, Fetch.page goodPageB] = (some 999, 2) ∧
    ((some (999 : ℚ), 2) : Option ℚ × Nat) ≠ (none, 1) := by
  exact ⟨by decide, by decide⟩

/-- Claim C7 amended: Prisjakt never retries an extraction miss — the
first fetched page decides the outcome immediately with exactly one
attempt consumed, and only transport failures before it consume further
attempts; Blocket, by contrast, also retries extraction misses: every
fetched page that resolves to no value consumes an attempt and the loop
continues, while a successful resolution returns at once. -/
theorem c7_retry_policy :
    (∀ (sel : List Char) (pre : List Fetch) (p : Page) (post : List Fetch),
      (∀ f ∈ pre, f = Fetch.failed) →
      prisjaktScrapeRun sel (pre ++ Fetch.page p :: post) =
        (prisjaktScrapeCore p sel, pre.length + 1)) ∧
    (∀ (mn mx : Option ℚ) (ms rest : List Fetch),
      (∀ f ∈ ms, ∃ pg, f = Fetch.page pg ∧ blocketResolvePage pg mn mx = none) →
      blocketScrapeRun mn mx (ms ++ rest) =
        ((blocketScrapeRun mn mx rest).1, (blocketScrapeRun mn mx rest).2 + ms.length)) ∧
    (∀ (mn mx : Option ℚ) (p : Page) (rest : List Fetch) (q : ℚ),
      blocketResolvePage p mn mx = some q →
      blocketScrapeRun mn mx (Fetch.page p :: rest) = (some q, 1)) := by
  refine ⟨?_, ?_, ?_⟩
  · intro sel pre
    induction pre with
    | nil =>
      intro p post _
      simp [prisjaktScrapeRun]
    | cons f pre ih =>
      intro p post hpre
      have hf : f = Fetch.failed := hpre f (List.mem_cons_self f pre)
      subst hf
      have hpre2 : ∀ g ∈ pre, g = Fetch.failed :=
        fun g hg => hpre g (List.mem_cons_of_mem _ hg)
      rw [List.cons_append]
      show prisjaktScrapeRun sel (Fetch.failed :: (pre ++ Fetch.page p :: post)) = _
      simp only [prisjaktScrapeRun]
      rw [ih p post hpre2]
      simp [List.length_cons]
  · intro mn mx ms
    induction ms with
    | nil =>
      intro rest _
      simp only [List.nil_append, List.length_nil, Nat.add_zero]
    | cons f ms ih =>
      intro rest hms
      obtain ⟨pg, rfl, hres⟩ := hms f (List.mem_cons_self f ms)
      have hms2 : ∀ g ∈ ms, ∃ pg, g = Fetch.page pg ∧ blocketResolvePage pg mn mx = none :=
        fun g hg => hms g (List.mem_cons_of_mem _ hg)
      rw [List.cons_append]
      show blocketScrapeRun mn mx (Fetch.page pg :: (ms ++ rest)) = _
      simp only [blocketScrapeRun, hres]
      rw [ih rest hms2]
      simp [Nat.add_assoc]
  · intro mn mx p rest q h
    simp only [blocketScrapeRun, h]

/-- Claim C7 witness: the Prisjakt no-retry-on-miss statement applied to a
run with one transport failure followed by a fetched page. -/
theorem c7_witness :
    prisjaktScrapeRun priceLargeSel ([Fetch.failed] ++ Fetch.page examplePageA :: []) =
      (prisjaktScrapeCore examplePageA priceLargeSel, [Fetch.failed].length + 1) :=
  c7_retry_policy.1 priceLargeSel [Fetch.failed] examplePageA []
    (fun _ hf => List.mem_singleton.mp hf)

/-- Claim C8: every resolved price respects the plausibility bounds of the
strategy that produced it — any Prisjakt cascade result lies in 0 to
10000000, a result tagged as coming from the text-pattern sentinel lies in
100 to 100000 as does any text-pattern value, and a Blocket listing result
lies in 100 to 100000 and additionally passes the target's min/max
filter. -/
theorem c8_resolved_price_bounds :
    (∀ (page : Page) (sel : List Char),
      prisjaktScrapeCore page sel = (prisjaktScrapeTagged page sel).map Prod.snd) ∧
    (∀ (page : Page) (sel s : List Char) (p : ℚ),
      prisjaktScrapeTagged page sel = some (s, p) →
      (0 ≤ p ∧ p ≤ 10000000) ∧ (s = textSearchKey → 100 ≤ p ∧ p ≤ 100000)) ∧
    (∀ (text : List Char) (p : ℚ), prisjaktExtractFromText text = some p →
      100 ≤ p ∧ p ≤ 100000) ∧
    (∀ (page : Page) (mn mx : Option ℚ) (p : ℚ), blocketResolvePage page mn mx = some p →
      (100 ≤ p ∧ p ≤ 100000) ∧ isPriceInRange p mn mx = true) := by
  refine ⟨?_, ?_, fun text p h => prisjaktExtractFromText_bounds h, ?_⟩
  · intro page sel
    rw [prisjaktScrapeCore_eq, prisjaktScrapeTagged]
    exact firstSomeBy_eq_map_tagged _ _
  · intro page sel s p h
    rw [prisjaktScrapeTagged] at h
    obtain ⟨_, hstrat⟩ := firstSomeTaggedBy_eq_some h
    exact prisjaktStrategy_bounds hstrat
  · intro page mn mx p h
    rw [blocketResolvePage] at h
    obtain ⟨hne, hp⟩ := blocketSelectBest_some_char h
    have hmemf : p ∈ (blocketExtractSearchResultPrices page).filter
        (fun q => isPriceInRange q mn mx) := by
      rw [hp]
      exact listMin_mem hne
    have hmf := List.mem_filter.mp hmemf
    have hmem : p ∈ blocketCollectedPrices page := by
      have hm1 := hmf.1
      rw [blocketExtractSearchResultPrices] at hm1
      exact mem_sortedDedup.mp hm1
    exact ⟨blocketCollectedPrices_bounds hmem, hmf.2⟩

/-- Claim C8 witness: the Blocket bounds-and-filter statement applied to
the concrete listing page with items at 450, 999, 1500, 2200 kr. -/
theorem c8_witness :
    ((100 : ℚ) ≤ 999 ∧ (999 : ℚ) ≤ 100000) ∧
    isPriceInRange 999 (some 900) (some 2000) = true :=
  c8_resolved_price_bounds.2.2.2 examplePageB (some 900) (some 2000) 999 (by decide)

end PriceTracker
